import Mathlib

/-!
Verification of the conform form-state engine (conform-dom / conform-zod).

This file gives a shallow embedding of the path codec (getPaths / formatPaths),
the flatten engines, the intent codec (getIntent, updateList, the list intent's
key reconciliation, the fallback intent handler, the validated-flag clearing on
remove/replace), the pending-submission error filter, and the registry's
submit/update control flow (diffing, subscriber notification, effects), and
proves the specification's testable properties about them.

JS records (plain objects) are modelled as association lists
(List (String × α)) in insertion order; assigning a key keeps the position of
an existing entry and appends a new one otherwise, and reading takes the first
match.  JS strings are Lean Strings; String.prototype.startsWith is modelled on
the underlying character lists.  Numbers reaching the modelled code are natural
numbers (array indices); template interpolation of such a number is its decimal
rendering.
-/

namespace Conform

/-- Assignment in a JS object: overwrite in place if the key exists, append
otherwise (insertion order is preserved, like a JS plain object). -/
def dictSet {α : Type} (m : List (String × α)) (k : String) (v : α) :
    List (String × α) :=
  if (m.lookup k).isSome then
    m.map (fun e => if e.1 = k then (k, v) else e)
  else
    m ++ [(k, v)]

/-- Truthy read of a JS record of booleans: a missing key reads as false. -/
def lookupTruthy (m : List (String × Bool)) (k : String) : Bool :=
  (m.lookup k).getD false

/-- Model of JS String.prototype.startsWith on the character lists. -/
def jsStartsWith (s pre : String) : Bool :=
  pre.data.isPrefixOf s.data

/-- Model of Array.prototype.join with a separator. -/
def jsJoin (sep : String) : List String → String
  | [] => ""
  | x :: xs => xs.foldl (fun a b => a ++ sep ++ b) x

/-- The decimal digit character for a value below ten. -/
def decDigit : Nat → Char
  | 0 => '0'
  | 1 => '1'
  | 2 => '2'
  | 3 => '3'
  | 4 => '4'
  | 5 => '5'
  | 6 => '6'
  | 7 => '7'
  | 8 => '8'
  | _ => '9'

/-- A character matching the regex class [0-9]. -/
def isDigitChar (c : Char) : Bool :=
  '0' ≤ c && c ≤ '9'

/-- Fuelled core of the decimal rendering of a natural number; the fuel only
keeps the recursion structural (any fuel above the argument is enough, see
toDecCore_fuel). -/
def toDecCore : Nat → Nat → List Char → List Char
  | 0, _, acc => acc
  | fuel + 1, n, acc =>
    if n / 10 = 0 then decDigit (n % 10) :: acc
    else toDecCore fuel (n / 10) (decDigit (n % 10) :: acc)

/-- Decimal rendering of a natural number, as produced by JS template
interpolation of a nonnegative integer. -/
def natToDec (n : Nat) : String :=
  String.mk (toDecCore (n + 1) n [])

theorem decDigit_toNat {m : Nat} (h : m < 10) :
    (decDigit m).toNat = 48 + m := by
  interval_cases m <;> rfl

theorem isDigitChar_decDigit {m : Nat} (h : m < 10) :
    isDigitChar (decDigit m) = true := by
  interval_cases m <;> rfl

theorem div10_big {n : Nat} (h : n / 10 ≠ 0) : 10 ≤ n := by
  rcases Nat.lt_or_ge n 10 with h' | h'
  · exact absurd (Nat.div_eq_of_lt h') h
  · exact h'

theorem toDecCore_succ :
    ∀ (fuel n : Nat) (acc : List Char), n < fuel →
      toDecCore (fuel + 1) n acc = toDecCore fuel n acc := by
  intro fuel
  induction fuel with
  | zero => intro n acc h; omega
  | succ f ih =>
    intro n acc h
    show toDecCore (f + 1 + 1) n acc = toDecCore (f + 1) n acc
    conv_lhs => unfold toDecCore
    conv_rhs => unfold toDecCore
    by_cases h0 : n / 10 = 0
    · simp [h0]
    · simp only [h0, if_false]
      have hn10 : 10 ≤ n := div10_big h0
      have hd : n / 10 < n := Nat.div_lt_self (by omega) (by omega)
      exact ih (n / 10) _ (by omega)

theorem toDecCore_fuel {fuel n : Nat} (acc : List Char) (h : n < fuel) :
    toDecCore fuel n acc = toDecCore (n + 1) n acc := by
  induction fuel with
  | zero => omega
  | succ f ih =>
    rcases Nat.lt_or_ge n f with h' | h'
    · rw [toDecCore_succ f n acc h', ih h']
    · have hf : f = n := by omega
      subst hf
      rfl

theorem toDecCore_append {fuel n : Nat} (acc : List Char) (h : n < fuel) :
    toDecCore fuel n acc = toDecCore fuel n [] ++ acc := by
  induction fuel generalizing n acc with
  | zero => omega
  | succ f ih =>
    show toDecCore (f + 1) n acc = toDecCore (f + 1) n [] ++ acc
    conv_lhs => unfold toDecCore
    conv_rhs => unfold toDecCore
    by_cases h0 : n / 10 = 0
    · simp [h0]
    · have hn10 : 10 ≤ n := div10_big h0
      have hd : n / 10 < n := Nat.div_lt_self (by omega) (by omega)
      simp only [h0, if_false]
      rw [ih _ (by omega : n / 10 < f), ih (decDigit (n % 10) :: [])
        (by omega : n / 10 < f)]
      simp

theorem toDecCore_digits {fuel n : Nat} (acc : List Char) (h : n < fuel)
    (hacc : ∀ c ∈ acc, isDigitChar c = true) :
    ∀ c ∈ toDecCore fuel n acc, isDigitChar c = true := by
  induction fuel generalizing n acc with
  | zero => omega
  | succ f ih =>
    show ∀ c ∈ toDecCore (f + 1) n acc, isDigitChar c = true
    unfold toDecCore
    by_cases h0 : n / 10 = 0
    · simp only [h0, if_true]
      intro c hc
      rcases List.mem_cons.mp hc with h' | h'
      · subst h'; exact isDigitChar_decDigit (Nat.mod_lt _ (by omega))
      · exact hacc c h'
    · have hn10 : 10 ≤ n := div10_big h0
      have hd : n / 10 < n := Nat.div_lt_self (by omega) (by omega)
      simp only [h0, if_false]
      refine ih _ (by omega : n / 10 < f) ?_
      intro c hc
      rcases List.mem_cons.mp hc with h' | h'
      · subst h'; exact isDigitChar_decDigit (Nat.mod_lt _ (by omega))
      · exact hacc c h'

/-- One step of the decimal re-parse used by getPaths on an index slice. -/
def parseStep (v : Nat) (c : Char) : Nat :=
  v * 10 + (c.toNat - 48)

theorem parseStep_decDigit (v m : Nat) (h : m < 10) :
    parseStep v (decDigit m) = v * 10 + m := by
  unfold parseStep
  rw [decDigit_toNat h]
  omega

theorem foldl_parseStep_toDecCore {fuel n : Nat} (h : n < fuel) :
    ∀ v acc, List.foldl parseStep v (toDecCore fuel n acc) =
      List.foldl parseStep (v * 10 ^ (toDecCore fuel n []).length + n) acc := by
  induction fuel generalizing n with
  | zero => omega
  | succ f ih =>
    intro v acc
    by_cases h0 : n / 10 = 0
    · have hn : n < 10 := by
        by_contra hcon
        push_neg at hcon
        have : 1 ≤ n / 10 := (Nat.one_le_div_iff (by omega)).mpr hcon
        omega
      have hmod : n % 10 = n := Nat.mod_eq_of_lt hn
      show List.foldl parseStep v (toDecCore (f + 1) n acc) = _
      conv_lhs => unfold toDecCore
      conv_rhs => unfold toDecCore
      simp only [h0, if_true, List.foldl_cons, List.length_cons,
        List.length_nil]
      rw [parseStep_decDigit _ _ (by omega), hmod]
      norm_num
    · have hn10 : 10 ≤ n := div10_big h0
      have hd : n / 10 < n := Nat.div_lt_self (by omega) (by omega)
      have hlt : n / 10 < f := by omega
      show List.foldl parseStep v (toDecCore (f + 1) n acc) = _
      conv_lhs => unfold toDecCore
      conv_rhs => unfold toDecCore
      simp only [h0, if_false]
      rw [ih hlt v (decDigit (n % 10) :: acc),
        toDecCore_append (decDigit (n % 10) :: []) hlt]
      simp only [List.foldl_cons, List.length_append, List.length_cons,
        List.length_nil]
      rw [parseStep_decDigit _ _ (Nat.mod_lt _ (by omega))]
      have heq : (v * 10 ^ ((toDecCore f (n / 10) []).length + (0 + 1)) + n) =
          ((v * 10 ^ (toDecCore f (n / 10) []).length + n / 10) * 10 +
            n % 10) := by
        rw [pow_succ]
        have := Nat.div_add_mod n 10
        ring_nf
        omega
      rw [heq]

theorem foldl_parseStep_natToDec (n : Nat) :
    List.foldl parseStep 0 (natToDec n).data = n := by
  show List.foldl parseStep 0 (toDecCore (n + 1) n []) = n
  rw [foldl_parseStep_toDecCore (by omega) 0 []]
  simp

theorem natToDec_digits (n : Nat) :
    ∀ c ∈ (natToDec n).data, isDigitChar c = true := by
  show ∀ c ∈ toDecCore (n + 1) n [], isDigitChar c = true
  exact toDecCore_digits [] (by omega) (by intro c hc; cases hc)

theorem natToDec_ne_empty (n : Nat) : (natToDec n).data ≠ [] := by
  show toDecCore (n + 1) n [] ≠ []
  unfold toDecCore
  by_cases h0 : n / 10 = 0
  · simp [h0]
  · have hn10 : 10 ≤ n := div10_big h0
    have hd : n / 10 < n := Nat.div_lt_self (by omega) (by omega)
    simp only [h0, if_false]
    rw [toDecCore_append _ (by omega : n / 10 < n)]
    simp

theorem lookup_cons {α : Type} (a : String) (b : α) (l : List (String × α))
    (k : String) :
    List.lookup k ((a, b) :: l) = if k = a then some b else List.lookup k l := by
  by_cases h : k = a
  · simp [List.lookup, h]
  · have h1 : (k == a) = false := by simpa using h
    simp [List.lookup, h1, h]

theorem lookup_map_overwrite_ne {α : Type} (m : List (String × α))
    (k k' : String) (v : α) (h : k' ≠ k) :
    (m.map (fun e => if e.1 = k then (k, v) else e)).lookup k' =
      m.lookup k' := by
  induction m with
  | nil => rfl
  | cons e rest ih =>
    obtain ⟨a, b⟩ := e
    by_cases he : a = k
    · simp only [List.map_cons, if_pos he]
      rw [lookup_cons, lookup_cons, if_neg h, if_neg (he ▸ h), ih]
    · simp only [List.map_cons, if_neg he]
      rw [lookup_cons, lookup_cons, ih]

theorem lookup_map_overwrite_eq {α : Type} (m : List (String × α))
    (k : String) (v : α) (h : (m.lookup k).isSome) :
    (m.map (fun e => if e.1 = k then (k, v) else e)).lookup k = some v := by
  induction m with
  | nil => simp [List.lookup] at h
  | cons e rest ih =>
    obtain ⟨a, b⟩ := e
    by_cases he : a = k
    · simp only [List.map_cons, if_pos he]
      rw [lookup_cons, if_pos rfl]
    · simp only [List.map_cons, if_neg he]
      rw [lookup_cons, if_neg (fun hcon => he hcon.symm)]
      rw [lookup_cons, if_neg (fun hcon => he hcon.symm)] at h
      exact ih h

theorem lookup_append_right {α : Type} (m l : List (String × α)) (k : String)
    (h : m.lookup k = none) : (m ++ l).lookup k = l.lookup k := by
  induction m with
  | nil => rfl
  | cons e rest ih =>
    obtain ⟨a, b⟩ := e
    rw [lookup_cons] at h
    by_cases hk : k = a
    · simp [if_pos hk] at h
    · rw [if_neg hk] at h
      rw [List.cons_append, lookup_cons, if_neg hk]
      exact ih h

theorem lookup_append_left {α : Type} (m l : List (String × α)) (k : String)
    (w : α) (h : m.lookup k = some w) : (m ++ l).lookup k = some w := by
  induction m with
  | nil => simp [List.lookup] at h
  | cons e rest ih =>
    obtain ⟨a, b⟩ := e
    rw [lookup_cons] at h
    rw [List.cons_append, lookup_cons]
    by_cases hk : k = a
    · rw [if_pos hk] at h
      rw [if_pos hk]
      exact h
    · rw [if_neg hk] at h
      rw [if_neg hk]
      exact ih h

theorem dictSet_lookup_eq {α : Type} (m : List (String × α)) (k : String)
    (v : α) : (dictSet m k v).lookup k = some v := by
  unfold dictSet
  by_cases h : (m.lookup k).isSome
  · simp only [h, if_true]
    exact lookup_map_overwrite_eq m k v h
  · have hn : m.lookup k = none := by
      cases hm : m.lookup k with
      | none => rfl
      | some w => rw [hm] at h; simp at h
    rw [if_neg (by simp [hn])]
    rw [lookup_append_right m _ k hn]
    simp [List.lookup]

theorem dictSet_lookup_ne {α : Type} (m : List (String × α)) (k k' : String)
    (v : α) (h : k' ≠ k) : (dictSet m k v).lookup k' = m.lookup k' := by
  unfold dictSet
  by_cases hs : (m.lookup k).isSome
  · simp only [hs, if_true]
    exact lookup_map_overwrite_ne m k k' v h
  · have hn : m.lookup k = none := by
      cases hm : m.lookup k with
      | none => rfl
      | some w => rw [hm] at hs; simp at hs
    rw [if_neg (by simp [hn])]
    cases hm : m.lookup k' with
    | none =>
      rw [lookup_append_right m _ k' hm]
      have h1 : (k' == k) = false := by simpa using h
      simp [List.lookup, h1]
    | some w => exact lookup_append_left m _ k' w hm

end Conform

namespace Conform

/-! ### Intent codec: getIntent (conform-dom intent.ts) -/

/-- A FormData value: either a string or a File object (identified by an id,
since distinct File objects are never strictly equal). -/
inductive FdVal where
  | str (s : String)
  | file (id : Nat)
deriving DecidableEq

/-- JS truthiness of a FormData value: an object is truthy, a string is truthy
exactly when nonempty. -/
def FdVal.truthy : FdVal → Bool
  | .str s => s ≠ ""
  | .file _ => true

/-- The message of the error thrown by getIntent. -/
def intentErrorMsg : String := "The intent could only be set on a button"

/-- Model of getIntent: the argument is payload.getAll of the reserved intent
field, in order.  An empty list means payload.has is false.  The code
destructures the list as [intent, secondIntent, ...rest] and throws when the
first entry is not a string, when a truthy second entry differs from the
first, or when more than two entries are present. -/
def getIntentModel : List FdVal → Except String (Option String)
  | [] => Except.ok none
  | .file _ :: _ => Except.error intentErrorMsg
  | .str s :: restAll =>
    let secondDiffers :=
      match restAll.head? with
      | some v => v.truthy && !(FdVal.str s == v)
      | none => false
    if secondDiffers || !(restAll.drop 1).isEmpty then
      Except.error intentErrorMsg
    else
      Except.ok (some s)

/-- Specification of getIntent as amended: null for no entry; the string for a
single string entry; for exactly two entries the first is returned when the
second is an identical string or the empty string, otherwise an error; any
other shape (a File first entry, a differing truthy second entry, three or
more entries) is an error. -/
def getIntentSpec : List FdVal → Except String (Option String)
  | [] => Except.ok none
  | [FdVal.str s] => Except.ok (some s)
  | [FdVal.str s, FdVal.str t] =>
    if t = s ∨ t = "" then Except.ok (some s) else Except.error intentErrorMsg
  | _ => Except.error intentErrorMsg

/-! ### List intent: updateList and the key reconciliation
(conform-dom intent.ts) -/

/-- The payload of a list intent.  The last two fields of reorder are the
source and destination indices (called from/to in the source). -/
inductive ListOp (α : Type) where
  | prepend (defaultValue : α)
  | append (defaultValue : α)
  | replace (defaultValue : α) (index : Nat)
  | remove (index : Nat)
  | reorder (src : Nat) (dst : Nat)

/-- Model of updateList: the structural array mutation of each operation.
prepend is unshift, append is push, replace is splice(index, 1, value),
remove is splice(index, 1), reorder is splice(to, 0, ...splice(from, 1))
(the inner splice runs first on the array).  take/drop clamp out-of-range
indices exactly as Array.prototype.splice does for nonnegative arguments. -/
def updateList {α : Type} (l : List α) : ListOp α → List α
  | .prepend v => v :: l
  | .append v => l ++ [v]
  | .replace v i => l.take i ++ [v] ++ l.drop (i + 1)
  | .remove i => l.take i ++ l.drop (i + 1)
  | .reorder f t =>
    let removed := (l.drop f).take 1
    let rest := l.take f ++ l.drop (f + 1)
    rest.take t ++ removed ++ rest.drop t

/-- The list intent's key reconciliation (list.update in intent.ts): for the
insert-like operations (append/prepend/replace) the key array undergoes the
operation with a freshly generated key as the inserted value; for remove and
reorder it undergoes the identical structural operation.  The generated key
(Date.now() * Math.random() in base 36) is passed in as an oracle value. -/
def reconcileKeys {α : Type} (keys : List String) (op : ListOp α)
    (fresh : String) : List String :=
  match op with
  | .append _ => updateList keys (.append fresh)
  | .prepend _ => updateList keys (.prepend fresh)
  | .replace _ i => updateList keys (.replace fresh i)
  | .remove i => updateList keys (.remove i)
  | .reorder f t => updateList keys (.reorder f t)

/-! ### Clearing validated flags on remove/replace (conform-zod parse.ts) -/

/-- The validated-flag clearing loop run when a list intent with operation
remove or replace is processed: every key of the validated record that starts
with the string "name[index]" is set to false (in place, preserving entry
order). -/
def clearValidated (validated : List (String × Bool)) (name : String)
    (index : Nat) : List (String × Bool) :=
  validated.map (fun e =>
    if jsStartsWith e.1 (name ++ "[" ++ natToDec index ++ "]") then (e.1, false)
    else e)

/-- Dispatch of the clearing on the intent payload: only remove and replace
trigger it (the surrounding if in parse.ts). -/
def applyListValidatedClearing {α : Type} (validated : List (String × Bool))
    (op : ListOp α) (name : String) : List (String × Bool) :=
  match op with
  | .remove i => clearValidated validated name i
  | .replace _ i => clearValidated validated name i
  | _ => validated

/-! ### The fallback intent handler (conform-dom intent.ts) -/

/-- Marking a list of names as validated, in order (each assignment is a JS
record assignment). -/
def markValidatedAll (names : List String)
    (validated : List (String × Bool)) : List (String × Bool) :=
  names.foldl (fun v n => dictSet v n true) validated

/-- The handler returned by getIntentHandler when no intent marker is present:
it walks [...form.fields, ...Object.keys(result.error)] and sets each name's
validated flag to true. -/
def fallbackIntentHandler (fields errorNames : List String)
    (validated : List (String × Bool)) : List (String × Bool) :=
  markValidatedAll (fields ++ errorNames) validated

/-! ### The pending-submission error filter (createSubmission) -/

/-- The validate intent's update handler: result.state.validated[payload] is
set to true. -/
def validateIntentUpdate (payload : String)
    (validated : List (String × Bool)) : List (String × Bool) :=
  dictSet validated payload true

/-- The error filter applied by createSubmission when the submission is
pending: only the entries whose name has a truthy validated flag are kept
(Object.entries reduce rebuilding the record). -/
def filterPendingError (error : List (String × List String))
    (validated : List (String × Bool)) : List (String × List String) :=
  error.foldl
    (fun r e => if lookupTruthy validated e.1 then dictSet r e.1 e.2 else r) []

/-- The error map reported for a pending submission driven by a validate
intent on the given payload: the intent handler marks the payload validated,
then the pending filter keeps only validated names. -/
def pendingReportError (error : List (String × List String))
    (validated : List (String × Bool)) (payload : String) :
    List (String × List String) :=
  filterPendingError error (validateIntentUpdate payload validated)

end Conform

namespace Conform

theorem eraseIdx_take_drop {α : Type} :
    ∀ (l : List α) (i : Nat), l.eraseIdx i = l.take i ++ l.drop (i + 1) := by
  intro l
  induction l with
  | nil => intro i; cases i <;> rfl
  | cons x xs ih =>
    intro i
    cases i with
    | zero => simp [List.eraseIdx]
    | succ j => simp [List.eraseIdx, ih j]

theorem reorder_perm {α : Type} (l : List α) (f t : Nat) :
    (updateList l (ListOp.reorder f t)).Perm l := by
  show (((l.take f ++ l.drop (f + 1)).take t ++ (l.drop f).take 1) ++
      (l.take f ++ l.drop (f + 1)).drop t).Perm l
  have h1 : (((l.take f ++ l.drop (f + 1)).take t ++ (l.drop f).take 1) ++
      (l.take f ++ l.drop (f + 1)).drop t).Perm
      ((l.drop f).take 1 ++ (l.take f ++ l.drop (f + 1))) := by
    refine ((List.perm_append_comm).append_right _).trans ?_
    rw [List.append_assoc, List.take_append_drop]
  refine h1.trans ?_
  rcases Nat.lt_or_ge f l.length with hf | hf
  · have hdrop : l.drop f = l[f] :: l.drop (f + 1) :=
      List.drop_eq_getElem_cons hf
    have hrem : (l.drop f).take 1 = [l[f]] := by rw [hdrop]; rfl
    rw [hrem]
    have h2 : (l[f] :: (l.take f ++ l.drop (f + 1))).Perm
        (l.take f ++ l[f] :: l.drop (f + 1)) := List.perm_middle.symm
    have h3 : l.take f ++ l[f] :: l.drop (f + 1) = l := by
      rw [← hdrop, List.take_append_drop]
    rw [h3] at h2
    exact h2
  · have hdrop : l.drop f = [] := List.drop_eq_nil_of_le hf
    have hdrop1 : l.drop (f + 1) = [] := List.drop_eq_nil_of_le (by omega)
    have htake : l.take f = l := List.take_of_length_le hf
    rw [hdrop, hdrop1, htake]
    simp

/-- C2: for a list key array of length k, the list intent's key reconciliation
yields: for remove at index i < k, the original key array with the element at
i deleted (length k - 1, no key regenerated); for append, the original keys
followed by the freshly generated, previously-unused key (length k + 1); for
reorder, a permutation of exactly the original keys with no key regenerated. -/
theorem c2_list_key_stability (keys : List String) (i : Nat) (g : String)
    (f t : Nat) (hi : i < keys.length) (hg : g ∉ keys) :
    (reconcileKeys keys (ListOp.remove i : ListOp Unit) g = keys.eraseIdx i ∧
      (reconcileKeys keys (ListOp.remove i : ListOp Unit) g).length =
        keys.length - 1) ∧
    (reconcileKeys keys (ListOp.append ()) g = keys ++ [g] ∧
      (reconcileKeys keys (ListOp.append ()) g).length = keys.length + 1 ∧
      (reconcileKeys keys (ListOp.append ()) g).take keys.length = keys ∧
      (reconcileKeys keys (ListOp.append ()) g).getLast? = some g ∧
      g ∉ keys) ∧
    (reconcileKeys keys (ListOp.reorder f t : ListOp Unit) g).Perm keys := by
  refine ⟨⟨?_, ?_⟩, ⟨rfl, ?_, ?_, ?_, hg⟩, reorder_perm keys f t⟩
  · show keys.take i ++ keys.drop (i + 1) = keys.eraseIdx i
    rw [eraseIdx_take_drop]
  · show (keys.take i ++ keys.drop (i + 1)).length = keys.length - 1
    rw [List.length_append, List.length_take, List.length_drop]
    omega
  · show (keys ++ [g]).length = keys.length + 1
    simp
  · show (keys ++ [g]).take keys.length = keys
    simp
  · show (keys ++ [g]).getLast? = some g
    simp

/-- Witness for c2_list_key_stability at a concrete key array. -/
theorem c2_list_key_stability_witness :
    (1 < (["k0", "k1", "k2"] : List String).length ∧
      "g9" ∉ (["k0", "k1", "k2"] : List String)) ∧
    reconcileKeys ["k0", "k1", "k2"] (ListOp.remove 1 : ListOp Unit) "g9" =
      ["k0", "k2"] ∧
    reconcileKeys ["k0", "k1", "k2"] (ListOp.append ()) "g9" =
      ["k0", "k1", "k2", "g9"] := by
  refine ⟨⟨by decide, by decide⟩, ?_, ?_⟩
  · have h := c2_list_key_stability ["k0", "k1", "k2"] 1 "g9" 0 2
      (by decide) (by decide)
    rw [h.1.1]
    rfl
  · have h := c2_list_key_stability ["k0", "k1", "k2"] 1 "g9" 0 2
      (by decide) (by decide)
    rw [h.2.1.1]
    rfl

end Conform

namespace Conform

/-- C10 counterexample: the claim states getIntent throws whenever two intent
entries differ, but with the two distinct string entries "a" and "" the code
returns "a": the second entry is the empty string, which is falsy, so the
inequality check is skipped. -/
theorem c10_counterexample :
    getIntentModel [FdVal.str "a", FdVal.str ""] = Except.ok (some "a") ∧
    ("a" : String) ≠ "" := by
  exact ⟨rfl, by decide⟩

/-- C10 as amended: getIntent returns null when no intent entry is present,
the string for a single string entry, and for exactly two entries returns the
first when the second is an identical string or the empty string; it throws
for a differing truthy second entry, for more than two entries, and for a
non-string first entry. -/
theorem c10_getIntent_amended (values : List FdVal) :
    getIntentModel values = getIntentSpec values := by
  match values with
  | [] => rfl
  | FdVal.file f :: rest =>
    cases rest <;> rfl
  | [FdVal.str s] => rfl
  | FdVal.str s :: v2 :: rest =>
    cases rest with
    | cons r rest' =>
      cases v2 with
      | str t =>
        show getIntentModel (FdVal.str s :: FdVal.str t :: r :: rest') = _
        simp only [getIntentModel, getIntentSpec, List.head?, List.drop,
          List.isEmpty_cons, Bool.not_false, Bool.or_true, if_true]
      | file g =>
        show getIntentModel (FdVal.str s :: FdVal.file g :: r :: rest') = _
        simp only [getIntentModel, getIntentSpec, List.head?, List.drop,
          List.isEmpty_cons, Bool.not_false, Bool.or_true, if_true]
    | nil =>
      cases v2 with
      | file g =>
        show getIntentModel [FdVal.str s, FdVal.file g] = _
        simp [getIntentModel, getIntentSpec, FdVal.truthy]
      | str t =>
        show getIntentModel [FdVal.str s, FdVal.str t] = _
        by_cases ht : t = ""
        · subst ht
          simp [getIntentModel, getIntentSpec, FdVal.truthy]
        · by_cases hts : t = s
          · subst hts
            simp [getIntentModel, getIntentSpec, FdVal.truthy]
          · have hne : ¬(FdVal.str s = FdVal.str t) := by
              intro hcon
              exact hts (by cases hcon; rfl)
            simp [getIntentModel, getIntentSpec, FdVal.truthy, ht, hts, hne]

end Conform

namespace Conform

theorem clearValidated_lookup (v0 : List (String × Bool)) (name : String)
    (i : Nat) (k : String) :
    (clearValidated v0 name i).lookup k =
      if jsStartsWith k (name ++ "[" ++ natToDec i ++ "]") = true then
        (v0.lookup k).map (fun _ => false)
      else v0.lookup k := by
  induction v0 with
  | nil =>
    cases h : jsStartsWith k (name ++ "[" ++ natToDec i ++ "]") <;>
      simp [clearValidated, h, List.lookup]
  | cons e rest ih =>
    obtain ⟨a, b⟩ := e
    have hstep : clearValidated ((a, b) :: rest) name i =
        (if jsStartsWith a (name ++ "[" ++ natToDec i ++ "]") = true
          then (a, false) else (a, b)) :: clearValidated rest name i := rfl
    rw [hstep]
    by_cases hk : k = a
    · subst hk
      cases hsw : jsStartsWith k (name ++ "[" ++ natToDec i ++ "]") <;>
        simp [lookup_cons, hsw]
    · cases hsw : jsStartsWith a (name ++ "[" ++ natToDec i ++ "]") <;>
        cases hks : jsStartsWith k (name ++ "[" ++ natToDec i ++ "]") <;>
          simp [lookup_cons, hk, hks, ih, hsw]

theorem isDigitChar_rbracket : isDigitChar ']' = false := by decide

/-- If a digit string followed by the closing bracket is a prefix of another
digit string followed by the closing bracket and more, the digit strings are
equal: the bracket acts as a sentinel that cannot occur among digits. -/
theorem bracket_sentinel_eq :
    ∀ (a b t : List Char), (∀ c ∈ a, isDigitChar c = true) →
      (∀ c ∈ b, isDigitChar c = true) →
      (a ++ [']'] <+: b ++ ']' :: t) → a = b := by
  intro a
  induction a with
  | nil =>
    intro b t _ hb h
    cases b with
    | nil => rfl
    | cons d b' =>
      rw [List.nil_append] at h
      rw [List.cons_append] at h
      rw [List.cons_prefix_cons] at h
      have hd : isDigitChar d = true := hb d (List.mem_cons_self d b')
      rw [← h.1] at hd
      exact absurd hd (by decide)
  | cons c a' ih =>
    intro b t ha hb h
    cases b with
    | nil =>
      rw [List.cons_append, List.nil_append, List.cons_prefix_cons] at h
      have hc : isDigitChar c = true := ha c (List.mem_cons_self c a')
      rw [h.1] at hc
      exact absurd hc (by decide)
    | cons d b' =>
      rw [List.cons_append, List.cons_append, List.cons_prefix_cons] at h
      have ha' : ∀ x ∈ a', isDigitChar x = true :=
        fun x hx => ha x (List.mem_cons_of_mem c hx)
      have hb' : ∀ x ∈ b', isDigitChar x = true :=
        fun x hx => hb x (List.mem_cons_of_mem d hx)
      rw [h.1, ih b' t ha' hb' h.2]

theorem natToDec_inj {i j : Nat} (h : (natToDec i).data = (natToDec j).data) :
    i = j := by
  have h1 := foldl_parseStep_natToDec i
  have h2 := foldl_parseStep_natToDec j
  rw [h] at h1
  omega

theorem jsStartsWith_append (p tail : String) :
    jsStartsWith (p ++ tail) p = true := by
  unfold jsStartsWith
  rw [List.isPrefixOf_iff_prefix]
  show p.data <+: p.data ++ tail.data
  exact List.prefix_append _ _

/-- A name under one list index never starts with the clearing prefix of a
different index: the closing bracket ends both decimal index renderings, so a
prefix match forces the renderings to agree, hence the indices. -/
theorem jsStartsWith_other_index (name : String) (i j : Nat) (tail : String)
    (hij : j ≠ i) :
    jsStartsWith (name ++ "[" ++ natToDec j ++ "]" ++ tail)
      (name ++ "[" ++ natToDec i ++ "]") = false := by
  cases hx : jsStartsWith (name ++ "[" ++ natToDec j ++ "]" ++ tail)
      (name ++ "[" ++ natToDec i ++ "]") with
  | false => rfl
  | true =>
    exfalso
    unfold jsStartsWith at hx
    rw [List.isPrefixOf_iff_prefix] at hx
    have hi : (name ++ "[" ++ natToDec i ++ "]").data =
        (name.data ++ ['[']) ++ ((natToDec i).data ++ [']']) := by
      show (name.data ++ ['[' ] ++ (natToDec i).data ++ [']']) = _
      simp [List.append_assoc]
    have hj : (name ++ "[" ++ natToDec j ++ "]" ++ tail).data =
        (name.data ++ ['[']) ++ ((natToDec j).data ++ ']' :: tail.data) := by
      show (name.data ++ ['[' ] ++ (natToDec j).data ++ [']'] ++ tail.data) = _
      simp [List.append_assoc]
    rw [hi, hj, List.prefix_append_right_inj] at hx
    exact hij (natToDec_inj (bracket_sentinel_eq (natToDec i).data
      (natToDec j).data tail.data (natToDec_digits i) (natToDec_digits j)
      hx)).symm

/-- C5: when a list intent with operation remove or replace at index i on a
list name is processed, every validated entry whose key lies under the
affected index (the key is name[i] or name[i] followed by anything, e.g.
name[i].field) is cleared to false, while validated entries under any other
index j of the same list are left unchanged. -/
theorem c5_validated_clearing (v0 : List (String × Bool)) (name : String)
    (i : Nat) :
    (∀ k tail, k = name ++ "[" ++ natToDec i ++ "]" ++ tail →
      (applyListValidatedClearing v0 (ListOp.remove i : ListOp Unit)
          name).lookup k = (v0.lookup k).map (fun _ => false) ∧
      (applyListValidatedClearing v0 (ListOp.replace () i) name).lookup k =
        (v0.lookup k).map (fun _ => false)) ∧
    (∀ k j tail, j ≠ i → k = name ++ "[" ++ natToDec j ++ "]" ++ tail →
      (applyListValidatedClearing v0 (ListOp.remove i : ListOp Unit)
          name).lookup k = v0.lookup k ∧
      (applyListValidatedClearing v0 (ListOp.replace () i) name).lookup k =
        v0.lookup k) := by
  constructor
  · intro k tail hk
    subst hk
    have hsw : jsStartsWith (name ++ "[" ++ natToDec i ++ "]" ++ tail)
        (name ++ "[" ++ natToDec i ++ "]") = true :=
      jsStartsWith_append _ tail
    constructor
    · show (clearValidated v0 name i).lookup _ = _
      rw [clearValidated_lookup, if_pos hsw]
    · show (clearValidated v0 name i).lookup _ = _
      rw [clearValidated_lookup, if_pos hsw]
  · intro k j tail hij hk
    subst hk
    have hsw := jsStartsWith_other_index name i j tail hij
    constructor
    · show (clearValidated v0 name i).lookup _ = _
      rw [clearValidated_lookup, if_neg (by simp [hsw])]
    · show (clearValidated v0 name i).lookup _ = _
      rw [clearValidated_lookup, if_neg (by simp [hsw])]

/-- Witness for c5_validated_clearing on a concrete validated map: removing
index 1 of "tasks" clears "tasks[1]" and "tasks[1].content" but leaves
"tasks[0]" and "tasks[10]" validated. -/
theorem c5_validated_clearing_witness :
    (applyListValidatedClearing
        [("tasks[1]", true), ("tasks[1].content", true), ("tasks[0]", true),
          ("tasks[10]", true)]
        (ListOp.remove 1 : ListOp Unit) "tasks").lookup "tasks[1].content" =
      some false ∧
    (applyListValidatedClearing
        [("tasks[1]", true), ("tasks[1].content", true), ("tasks[0]", true),
          ("tasks[10]", true)]
        (ListOp.remove 1 : ListOp Unit) "tasks").lookup "tasks[10]" =
      some true := by
  have h := c5_validated_clearing
    [("tasks[1]", true), ("tasks[1].content", true), ("tasks[0]", true),
      ("tasks[10]", true)] "tasks" 1
  constructor
  · have h1 := (h.1 "tasks[1].content" ".content" (by decide)).1
    rw [h1]
    decide
  · have h2 := (h.2 "tasks[10]" 10 "" (by decide) (by decide)).1
    rw [h2]
    decide

theorem markValidatedAll_lookup (names : List String)
    (v0 : List (String × Bool)) (n : String) :
    (markValidatedAll names v0).lookup n =
      if n ∈ names then some true else v0.lookup n := by
  induction names generalizing v0 with
  | nil => simp [markValidatedAll]
  | cons m ms ih =>
    show (markValidatedAll ms (dictSet v0 m true)).lookup n = _
    rw [ih]
    by_cases hms : n ∈ ms
    · simp [hms, List.mem_cons]
    · simp only [if_neg hms]
      by_cases hm : n = m
      · subst hm
        rw [dictSet_lookup_eq]
        simp [List.mem_cons]
      · rw [dictSet_lookup_ne _ _ _ _ hm]
        have : ¬ n ∈ m :: ms := by
          simp [List.mem_cons, hm, hms]
        simp [this]

/-- C6: when the payload carries no intent marker, the fallback intent
handler marks as validated exactly the union of the submitted field names and
the names of the resulting error map: every name in that union reads true
afterwards, and every other name keeps its previous flag. -/
theorem c6_fallback_marks_union (fields errorNames : List String)
    (v0 : List (String × Bool)) (n : String) :
    (fallbackIntentHandler fields errorNames v0).lookup n =
      if n ∈ fields ++ errorNames then some true else v0.lookup n :=
  markValidatedAll_lookup (fields ++ errorNames) v0 n

end Conform

namespace Conform

theorem filterPendingError_aux (error : List (String × List String))
    (validated : List (String × Bool)) (n : String) :
    ∀ acc, ((error.foldl (fun r e =>
        if lookupTruthy validated e.1 then dictSet r e.1 e.2 else r)
          acc).lookup n).isSome =
      ((acc.lookup n).isSome ||
        ((error.lookup n).isSome && lookupTruthy validated n)) := by
  induction error with
  | nil =>
    intro acc
    simp [List.lookup]
  | cons e rest ih =>
    intro acc
    obtain ⟨a, msgs⟩ := e
    rw [List.foldl_cons, ih]
    cases hv : lookupTruthy validated a with
    | false =>
      rw [if_neg (by simp [hv])]
      by_cases hn : n = a
      · subst hn
        rw [lookup_cons, if_pos rfl, hv]
        simp
      · rw [lookup_cons, if_neg hn]
    | true =>
      rw [if_pos (by simp [hv])]
      by_cases hn : n = a
      · subst hn
        rw [dictSet_lookup_eq, lookup_cons, if_pos rfl, hv]
        simp
      · rw [dictSet_lookup_ne _ _ _ _ hn, lookup_cons, if_neg hn]

theorem filterPendingError_isSome (error : List (String × List String))
    (validated : List (String × Bool)) (n : String) :
    ((filterPendingError error validated).lookup n).isSome =
      ((error.lookup n).isSome && lookupTruthy validated n) := by
  have h := filterPendingError_aux error validated n []
  simpa [filterPendingError, List.lookup] using h

/-- C3: for a pending submission driven by a validate intent on field a, the
reported error map contains a name exactly when the schema error map contains
it and the name's validated flag is true after the intent handler ran; in
particular a (if the schema rejected it) is reported while a never-validated
b is not. -/
theorem c3_pending_error_filter (error : List (String × List String))
    (v0 : List (String × Bool)) (a : String) :
    (∀ n, ((pendingReportError error v0 a).lookup n).isSome =
      ((error.lookup n).isSome && lookupTruthy (validateIntentUpdate a v0) n))
    ∧ ((error.lookup a).isSome = true →
      ((pendingReportError error v0 a).lookup a).isSome = true)
    ∧ (∀ b, b ≠ a → lookupTruthy v0 b = false →
      (pendingReportError error v0 a).lookup b = none) := by
  refine ⟨fun n => filterPendingError_isSome error _ n, ?_, ?_⟩
  · intro h
    show ((filterPendingError error
      (validateIntentUpdate a v0)).lookup a).isSome = true
    rw [filterPendingError_isSome, h]
    have ha : lookupTruthy (validateIntentUpdate a v0) a = true := by
      unfold lookupTruthy validateIntentUpdate
      rw [dictSet_lookup_eq]
      rfl
    rw [ha]
    rfl
  · intro b hb hv
    show (filterPendingError error (validateIntentUpdate a v0)).lookup b = none
    have h1 : lookupTruthy (validateIntentUpdate a v0) b =
        lookupTruthy v0 b := by
      unfold lookupTruthy validateIntentUpdate
      rw [dictSet_lookup_ne _ _ _ _ hb]
    have h2 := filterPendingError_isSome error (validateIntentUpdate a v0) b
    rw [h1, hv, Bool.and_false] at h2
    cases hx : (filterPendingError error (validateIntentUpdate a v0)).lookup b
      with
    | none => rfl
    | some w =>
      rw [hx] at h2
      simp at h2

/-- Witness for c3_pending_error_filter: a validate intent on "a" with schema
errors on both "a" and "b" and nothing previously validated reports the error
of "a" but not that of "b". -/
theorem c3_pending_error_filter_witness :
    ((pendingReportError [("a", ["Required"]), ("b", ["Required"])] []
        "a").lookup "a").isSome = true ∧
    (pendingReportError [("a", ["Required"]), ("b", ["Required"])] []
        "a").lookup "b" = none := by
  have h := c3_pending_error_filter [("a", ["Required"]), ("b", ["Required"])]
    [] "a"
  exact ⟨h.2.1 (by decide), h.2.2 "b" (by decide) (by decide)⟩

/-! ### The submit control flow (conform-dom registry.ts) -/

/-- The state of a Submission as seen by the registry. -/
inductive SubState where
  | pending
  | rejected
  | accepted
deriving DecidableEq

/-- The registry's view of a Submission: its discriminated state and the
error map of the SubmissionResult its report() returns. -/
structure SubmissionM where
  state : SubState
  reportError : List (String × List String)

/-- Model of shouldPreventDefault: an accepted submission never prevents; a
non-accepted one prevents unless some reported message carries the
deferred-validation marker prefix. -/
def shouldPreventDefault (s : SubmissionM) : Bool :=
  if s.state = SubState.accepted then false
  else if s.reportError.any (fun e =>
      e.2.any (fun m => jsStartsWith m "[VALIDATION_UNDEFINED] ")) then false
  else true

/-- The observable outcome of one submit() call: whether
event.preventDefault() ran, whether update(result) ran, whether the returned
record carries a submission, and whether the validation-failure warning was
logged. -/
structure SubmitOutcome where
  prevented : Bool
  updated : Bool
  hasSubmission : Bool
  logged : Bool
deriving DecidableEq

/-- Model of submit(): the onValidate argument is absent, throws (error), or
returns a submission.  The try block runs onValidate, then — when
shouldPreventDefault holds — update(result) followed by preventDefault, and
returns the plain record extended with the submission; a throw is caught and
logged and the plain record alone is returned. -/
def submitModel (onValidate : Option (Except String SubmissionM)) :
    SubmitOutcome :=
  match onValidate with
  | none =>
    { prevented := false, updated := false, hasSubmission := false,
      logged := false }
  | some (Except.error _) =>
    { prevented := false, updated := false, hasSubmission := false,
      logged := true }
  | some (Except.ok sub) =>
    if shouldPreventDefault sub then
      { prevented := true, updated := true, hasSubmission := true,
        logged := false }
    else
      { prevented := false, updated := false, hasSubmission := true,
        logged := false }

/-- C8: if the supplied onValidate callback throws during submit(), the
exception is caught and logged, the plain result record is returned without a
submission, preventDefault is never called, and no state update occurs. -/
theorem c8_validator_throw (e : String) :
    submitModel (some (Except.error e)) =
      { prevented := false, updated := false, hasSubmission := false,
        logged := true } := rfl

end Conform

namespace Conform

/-! ### The registry's update(): diff, snapshot replacement, notification
(conform-dom registry.ts) -/

/-- The value stored for a field in the initial-value map: a string or an
array of strings. -/
inductive FieldVal where
  | str (s : String)
  | list (l : List String)
deriving DecidableEq

/-- An Update record produced by the diff step of update(). -/
inductive Update where
  | error (name : String) (prev next : List String)
  | validated (name : String) (prev : Option Bool) (next : Bool)
  | list (name : String) (prev : Option (List String)) (next : List String)

/-- A subscriber: the identity of the subscription object plus its
shouldNotify predicate. -/
structure Subscriber where
  id : Nat
  shouldNotify : Update → Bool

/-- The registry's stored Form record (the fields update() touches). -/
structure FormSnap where
  initialValue : List (String × FieldVal)
  error : List (String × List String)
  validated : List (String × Bool)
  listKeys : List (String × List String)
  subscribers : List Subscriber

/-- The optional update options of a SubmissionResult (result.update). -/
structure UpdateOpt where
  remove : Option (List String)
  override : Option (List (String × FieldVal))
  focusField : Option Bool

/-- A SubmissionResult as consumed by update(): a null payload signals a form
reset. -/
structure ResultSnap where
  payload : Option (List (String × FieldVal))
  error : List (String × List String)
  validated : List (String × Bool)
  list : List (String × List String)
  updateOpt : Option UpdateOpt

/-- The unit-separator delimiter used to compare error message arrays. -/
def errDelimiter : String := String.mk [Char.ofNat 31]

/-- The sentinel marker on messages of skipped validations. -/
def skippedMarker : String := "[VALIDATION_SKIPPED] "

/-- The per-message normalization applied to an incoming error message: a
message carrying the skipped marker whose unprefixed form was already present
in the previous messages is replaced by the unprefixed form. -/
def mapSkipped (prev : List String) (m : String) : String :=
  if jsStartsWith m skippedMarker &&
      prev.contains (String.mk (m.data.drop skippedMarker.data.length)) then
    String.mk (m.data.drop skippedMarker.data.length)
  else m

/-- The error diff loop: walks the merged key set of the previous and incoming
error maps (previous keys first, then new incoming keys) and records an Update
whenever the joined messages differ. -/
def errorUpdates (formErr resErr : List (String × List String)) :
    List Update :=
  ((formErr.map Prod.fst ++ resErr.map Prod.fst).dedup).filterMap
    (fun name =>
      let prev := (formErr.lookup name).getD []
      let next := ((resErr.lookup name).getD []).map (mapSkipped prev)
      if jsJoin errDelimiter next ≠ jsJoin errDelimiter prev then
        some (Update.error name prev next)
      else none)

/-- The validated diff loop: walks the entries of the incoming validated map
and records an Update whenever the boolean differs from Boolean(prev). -/
def validatedUpdates (formVal resVal : List (String × Bool)) : List Update :=
  resVal.filterMap (fun e =>
    let prev := formVal.lookup e.1
    if e.2 ≠ prev.getD false then some (Update.validated e.1 prev e.2)
    else none)

/-- The list-keys diff loop: walks the entries of the incoming list map and
records an Update whenever the JSON encoding differs; on string arrays
JSON.stringify equality is plain equality, and an absent previous value
differs from every array. -/
def listUpdates (formList resList : List (String × List String)) :
    List Update :=
  resList.filterMap (fun e =>
    let prev := formList.lookup e.1
    if some e.2 ≠ prev then some (Update.list e.1 prev e.2) else none)

/-- All Update records computed by one update() call, in program order. -/
def computeUpdates (form : FormSnap) (result : ResultSnap) : List Update :=
  errorUpdates form.error result.error ++
    validatedUpdates form.validated result.validated ++
    listUpdates form.listKeys result.list

/-- The merge building the next initialValue: starting from
result.update?.override ?? {}, each previous entry is kept when its name is
not yet present and no removal prefix matches it. -/
def mergeInitialValue (formInit : List (String × FieldVal))
    (updateOpt : Option UpdateOpt) : List (String × FieldVal) :=
  formInit.foldl
    (fun dv e =>
      if (dv.lookup e.1).isSome = false &&
          ((Option.bind updateOpt UpdateOpt.remove).getD []).any
            (fun p => jsStartsWith e.1 p) = false then
        dv ++ [(e.1, e.2)]
      else dv)
    ((Option.bind updateOpt UpdateOpt.override).getD [])

/-- An observable side effect of update(). -/
inductive Effect where
  | reset
  | setValidity (name : String) (text : String)
  | notify (id : Nat)
  | focus
deriving DecidableEq

/-- The subscriber notification pass: per Update, every remaining subscriber
whose predicate accepts the Update fires (in order) and is removed from the
set for the rest of the call.  The result lists the fired subscriber ids per
Update. -/
def notifyRounds : List Subscriber → List Update → List (List Nat)
  | _, [] => []
  | subs, u :: us =>
    ((subs.filter (fun s => s.shouldNotify u)).map Subscriber.id) ::
      notifyRounds (subs.filter (fun s => !(s.shouldNotify u))) us

/-- The custom-validity write of one Update: only error Updates whose name
resolves to a named field element write, with the messages joined by a comma
and space. -/
def validityEffects (fields : List String) : Update → List Effect
  | Update.error name _ next =>
    if fields.contains name then
      [Effect.setValidity name (jsJoin ", " next)]
    else []
  | _ => []

/-- The per-Update loop of update(): the custom-validity write, then the
notifications of that round, interleaved in program order. -/
def applyUpdates (fields : List String) :
    List Subscriber → List Update → List Effect
  | _, [] => []
  | subs, u :: us =>
    validityEffects fields u ++
      ((subs.filter (fun s => s.shouldNotify u)).map
        (fun s => Effect.notify s.id)) ++
      applyUpdates fields (subs.filter (fun s => !(s.shouldNotify u))) us

/-- The focus move at the end of update(): performed unless
result.update?.focusField is false. -/
def focusEffects (result : ResultSnap) : List Effect :=
  if (Option.bind result.updateOpt UpdateOpt.focusField).getD true then
    [Effect.focus]
  else []

/-- Model of the registry's update(): a null payload resets the form; an
empty Update diff returns before replacing the snapshot or producing any
effect; otherwise the snapshot is replaced and the validity writes,
notifications and focus move happen in program order. -/
def updateModel (fields : List String) (form : FormSnap)
    (result : ResultSnap) : FormSnap × List Effect :=
  match result.payload with
  | none => (form, [Effect.reset])
  | some _ =>
    let updates := computeUpdates form result
    if updates.isEmpty then (form, [])
    else
      ({ form with
          initialValue := mergeInitialValue form.initialValue result.updateOpt,
          error := result.error,
          validated := result.validated,
          listKeys := result.list },
        applyUpdates fields form.subscribers updates ++ focusEffects result)

end Conform

namespace Conform

theorem notifyRounds_sublist (us : List Update) :
    ∀ subs : List Subscriber, ∀ r ∈ notifyRounds subs us,
      r.Sublist (subs.map Subscriber.id) := by
  induction us with
  | nil =>
    intro subs r hr
    cases hr
  | cons u rest ih =>
    intro subs r hr
    rcases List.mem_cons.mp hr with h | h
    · subst h
      exact ((List.filter_sublist subs).map Subscriber.id)
    · have hsub := ih (subs.filter (fun s => !(s.shouldNotify u))) r h
      exact hsub.trans ((List.filter_sublist subs).map Subscriber.id)

theorem count_flatten_zero (base : List Nat) (a : Nat) (ha : a ∉ base) :
    ∀ rounds : List (List Nat), (∀ r ∈ rounds, r.Sublist base) →
      rounds.flatten.count a = 0 := by
  intro rounds
  induction rounds with
  | nil => intro _; rfl
  | cons r rest ih =>
    intro h
    rw [List.flatten_cons, List.count_append]
    have h1 : r.count a = 0 := by
      have hle := (h r (List.mem_cons_self r rest)).count_le a
      rw [List.count_eq_zero.mpr ha] at hle
      omega
    have h2 := ih (fun x hx => h x (List.mem_cons_of_mem r hx))
    omega

theorem count_id_filter (u : Update) :
    ∀ subs : List Subscriber, (subs.map Subscriber.id).Nodup →
      ∀ s ∈ subs,
        ((subs.filter (fun x => x.shouldNotify u)).map
          Subscriber.id).count s.id =
          if s.shouldNotify u then 1 else 0 := by
  intro subs
  induction subs with
  | nil =>
    intro _ s hs
    cases hs
  | cons t rest ih =>
    intro hnodup s hs
    have hnodup' : (rest.map Subscriber.id).Nodup := by
      rw [List.map_cons] at hnodup
      exact hnodup.of_cons
    have htid : t.id ∉ rest.map Subscriber.id := by
      rw [List.map_cons] at hnodup
      exact (List.nodup_cons.mp hnodup).1
    rcases List.mem_cons.mp hs with h | h
    · subst h
      have hzero : ((rest.filter (fun x => x.shouldNotify u)).map
          Subscriber.id).count s.id = 0 := by
        apply List.count_eq_zero.mpr
        intro hcon
        exact htid (((List.filter_sublist rest).map Subscriber.id).mem hcon)
      cases hp : s.shouldNotify u with
      | true =>
        rw [List.filter_cons_of_pos (by simp [hp]), List.map_cons,
          List.count_cons_self, hzero]
        simp
      | false =>
        rw [List.filter_cons_of_neg (by simp [hp]), hzero]
        simp
    · have hsid : s.id ≠ t.id := by
        intro hcon
        exact htid (hcon ▸ List.mem_map_of_mem Subscriber.id h)
      rw [← ih hnodup' s h]
      cases hp : t.shouldNotify u with
      | true =>
        rw [List.filter_cons_of_pos (by simp [hp]), List.map_cons,
          List.count_cons_of_ne hsid]
      | false =>
        rw [List.filter_cons_of_neg (by simp [hp])]

/-- C4: within one update() call with its list of Update records, a
subscriber whose predicate accepts at least one record has its callback
invoked exactly once, a subscriber accepting none is never invoked, and each
notification round visits the remaining subscribers in registration order (a
sublist of the registered order). -/
theorem c4_notify_at_most_once (subs : List Subscriber)
    (updates : List Update) (hnodup : (subs.map Subscriber.id).Nodup) :
    (∀ s ∈ subs, updates.any s.shouldNotify = true →
      (notifyRounds subs updates).flatten.count s.id = 1) ∧
    (∀ s ∈ subs, updates.any s.shouldNotify = false →
      (notifyRounds subs updates).flatten.count s.id = 0) ∧
    (∀ r ∈ notifyRounds subs updates, r.Sublist (subs.map Subscriber.id)) := by
  refine ⟨?_, ?_, notifyRounds_sublist updates subs⟩
  · intro s hs hany
    induction updates generalizing subs with
    | nil => simp at hany
    | cons u rest ih =>
      rw [List.any_cons] at hany
      show (((subs.filter (fun x => x.shouldNotify u)).map Subscriber.id) ::
        notifyRounds (subs.filter (fun x => !(x.shouldNotify u))) rest
          ).flatten.count s.id = 1
      rw [List.flatten_cons, List.count_append]
      cases hp : s.shouldNotify u with
      | true =>
        have h1 := count_id_filter u subs hnodup s hs
        rw [hp, if_pos rfl] at h1
        have hnotin : s.id ∉ (subs.filter
            (fun x => !(x.shouldNotify u))).map Subscriber.id := by
          intro hcon
          rcases List.mem_map.mp hcon with ⟨t, ht, htid⟩
          have ht' := List.mem_filter.mp ht
          have : t = s := List.inj_on_of_nodup_map hnodup ht'.1 hs htid
          rw [this] at ht'
          rw [hp] at ht'
          simp at ht'
        have h2 := count_flatten_zero _ s.id hnotin
          (notifyRounds (subs.filter (fun x => !(x.shouldNotify u))) rest)
          (notifyRounds_sublist rest _)
        omega
      | false =>
        have h1 := count_id_filter u subs hnodup s hs
        rw [hp, if_neg (by simp)] at h1
        have hany' : rest.any s.shouldNotify = true := by
          rw [hp] at hany
          simpa using hany
        have hs' : s ∈ subs.filter (fun x => !(x.shouldNotify u)) :=
          List.mem_filter.mpr ⟨hs, by simp [hp]⟩
        have hnodup' : ((subs.filter
            (fun x => !(x.shouldNotify u))).map Subscriber.id).Nodup :=
          ((List.filter_sublist subs).map Subscriber.id).nodup hnodup
        have h2 := ih _ hnodup' hs' hany'
        omega
  · intro s hs hany
    induction updates generalizing subs with
    | nil => rfl
    | cons u rest ih =>
      rw [List.any_cons] at hany
      have hp : s.shouldNotify u = false := by
        cases hx : s.shouldNotify u with
        | false => rfl
        | true => rw [hx] at hany; simp at hany
      have hany' : rest.any s.shouldNotify = false := by
        rw [hp] at hany
        simpa using hany
      show (((subs.filter (fun x => x.shouldNotify u)).map Subscriber.id) ::
        notifyRounds (subs.filter (fun x => !(x.shouldNotify u))) rest
          ).flatten.count s.id = 0
      rw [List.flatten_cons, List.count_append]
      have h1 := count_id_filter u subs hnodup s hs
      rw [hp, if_neg (by simp)] at h1
      have hs' : s ∈ subs.filter (fun x => !(x.shouldNotify u)) :=
        List.mem_filter.mpr ⟨hs, by simp [hp]⟩
      have hnodup' : ((subs.filter
          (fun x => !(x.shouldNotify u))).map Subscriber.id).Nodup :=
        ((List.filter_sublist subs).map Subscriber.id).nodup hnodup
      have h2 := ih _ hnodup' hs' hany'
      omega

end Conform

namespace Conform

/-- Witness for c4_notify_at_most_once: with one matching and one
non-matching subscriber and a single Update, the first fires once and the
second never. -/
theorem c4_notify_at_most_once_witness :
    (notifyRounds [⟨1, fun _ => true⟩, ⟨2, fun _ => false⟩]
      [Update.validated "a" none true]).flatten.count 1 = 1 ∧
    (notifyRounds [⟨1, fun _ => true⟩, ⟨2, fun _ => false⟩]
      [Update.validated "a" none true]).flatten.count 2 = 0 := by
  have h := c4_notify_at_most_once
    [⟨1, fun _ => true⟩, ⟨2, fun _ => false⟩]
    [Update.validated "a" none true] (by decide)
  constructor
  · exact h.1 ⟨1, fun _ => true⟩ (List.mem_cons_self _ _) rfl
  · exact h.2.1 ⟨2, fun _ => false⟩
      (List.mem_cons_of_mem _ (List.mem_cons_self _ _)) rfl

/-- C9: when update() is called with a non-null payload whose error map,
validated flags and list keys all compare equal to the current snapshot (so
the diff is empty), the stored snapshot is left unchanged and no effect
occurs: no subscriber notification, no custom-validity write, no focus
move. -/
theorem c9_noop_update (fields : List String) (form : FormSnap)
    (result : ResultSnap) (hp : result.payload.isSome = true)
    (hE : ∀ name, ((result.error.lookup name).getD []).map
        (mapSkipped ((form.error.lookup name).getD [])) =
      (form.error.lookup name).getD [])
    (hV : ∀ e ∈ result.validated, e.2 = (form.validated.lookup e.1).getD false)
    (hL : ∀ e ∈ result.list, some e.2 = form.listKeys.lookup e.1) :
    updateModel fields form result = (form, []) := by
  have h1 : errorUpdates form.error result.error = [] := by
    unfold errorUpdates
    rw [List.filterMap_eq_nil_iff]
    intro name _
    have h := hE name
    simp only [h]
    simp
  have h2 : validatedUpdates form.validated result.validated = [] := by
    unfold validatedUpdates
    rw [List.filterMap_eq_nil_iff]
    intro e he
    have h := hV e he
    simp only [h]
    simp
  have h3 : listUpdates form.listKeys result.list = [] := by
    unfold listUpdates
    rw [List.filterMap_eq_nil_iff]
    intro e he
    have h := hL e he
    simp only [← h]
    simp
  have hupd : computeUpdates form result = [] := by
    unfold computeUpdates
    rw [h1, h2, h3]
    rfl
  unfold updateModel
  cases hpm : result.payload with
  | none =>
    rw [hpm] at hp
    simp at hp
  | some p =>
    simp [hupd]

/-- Witness for c9_noop_update: a concrete snapshot and an identical incoming
result leave the stored snapshot untouched and produce no effect. -/
theorem c9_noop_update_witness :
    updateModel ["age"]
      ⟨[("age", FieldVal.str "")], [("age", ["Required"])], [("age", true)],
        [], [⟨1, fun _ => true⟩]⟩
      ⟨some [("age", FieldVal.str "")], [("age", ["Required"])],
        [("age", true)], [], none⟩ =
      (⟨[("age", FieldVal.str "")], [("age", ["Required"])], [("age", true)],
        [], [⟨1, fun _ => true⟩]⟩, []) := by
  apply c9_noop_update
  · rfl
  · intro name
    by_cases h : name = "age"
    · subst h
      decide
    · show ((List.lookup name [("age", ["Required"])]).getD []).map _ =
        (List.lookup name [("age", ["Required"])]).getD []
      rw [lookup_cons, if_neg h]
      rfl
  · decide
  · decide

end Conform

namespace Conform

/-! ### The flatten engines (conform-dom formdata.ts and util.ts) -/

/-- A JS value as seen by the flatten engines: undefined, null, a string, a
Date, a File (with an identity), a plain object, or an array. -/
inductive JsVal where
  | undef
  | nullV
  | str (s : String)
  | date (t : Int)
  | file (id : Nat)
  | obj (entries : List (String × JsVal))
  | arr (items : List JsVal)

mutual
/-- Model of cleanup (formdata.ts): plain objects keep the entries whose
cleaned value is defined and collapse to undefined when empty; arrays collapse
to undefined when empty and otherwise map cleanup over the items; File and
null become undefined; everything else is returned unchanged. -/
def cleanup : JsVal → JsVal
  | JsVal.obj entries =>
    let cleaned := cleanupEntries entries
    if cleaned.isEmpty then JsVal.undef else JsVal.obj cleaned
  | JsVal.arr items =>
    if items.isEmpty then JsVal.undef else JsVal.arr (cleanupItems items)
  | JsVal.file _ => JsVal.undef
  | JsVal.nullV => JsVal.undef
  | v => v

/-- The entries reduce of cleanup on a plain object: entries whose cleaned
value is undefined are dropped. -/
def cleanupEntries : List (String × JsVal) → List (String × JsVal)
  | [] => []
  | (k, v) :: rest =>
    match cleanup v with
    | JsVal.undef => cleanupEntries rest
    | d => (k, d) :: cleanupEntries rest

/-- The array map of cleanup: undefined items are kept in place. -/
def cleanupItems : List JsVal → List JsVal
  | [] => []
  | v :: rest => cleanup v :: cleanupItems rest
end

/-- setResult of flatten (formdata.ts) with the default resolve (cleanup):
the resolved value is assigned unless it is null (cleanup never produces
null, but the check is the source's). -/
def setResultD (data : JsVal) (name : String)
    (result : List (String × JsVal)) : List (String × JsVal) :=
  match cleanup data with
  | JsVal.nullV => result
  | v => dictSet result name v

mutual
/-- The per-value dispatch of flatten (formdata.ts), shared by the entry loop
of processObject, the item loop of processArray and the top level: arrays and
plain objects recurse after emitting their own entry, anything else goes
through setResult. -/
def processValue : JsVal → String → List (String × JsVal) →
    List (String × JsVal)
  | JsVal.arr items, pre, result =>
    processItems items 0 pre (setResultD (JsVal.arr items) pre result)
  | JsVal.obj entries, pre, result =>
    processEntries entries pre (setResultD (JsVal.obj entries) pre result)
  | v, name, result => setResultD v name result

/-- The entry loop of processObject: child names are key for an empty prefix
and prefix.key otherwise. -/
def processEntries : List (String × JsVal) → String →
    List (String × JsVal) → List (String × JsVal)
  | [], _, result => result
  | (key, value) :: rest, pre, result =>
    let name := if pre = "" then key else pre ++ "." ++ key
    processEntries rest pre (processValue value name result)

/-- The item loop of processArray: child names are prefix[i]. -/
def processItems : List JsVal → Nat → String →
    List (String × JsVal) → List (String × JsVal)
  | [], _, _, result => result
  | item :: rest, i, pre, result =>
    let name := pre ++ "[" ++ natToDec i ++ "]"
    processItems rest (i + 1) pre (processValue item name result)
end

/-- Model of flatten (formdata.ts) with the default options: a truthy
argument (the TS signature admits an object, an array, or undefined) is
processed with the empty prefix into an empty record. -/
def flattenDom : JsVal → List (String × JsVal)
  | JsVal.obj entries => processValue (JsVal.obj entries) "" []
  | JsVal.arr items => processValue (JsVal.arr items) "" []
  | _ => []

mutual
/-- The per-value dispatch of the older flatten (util.ts), shared by its
processObject and processArray loops: arrays recurse (after the
all-strings group entry), File values are skipped, plain objects recurse
(Date and null fail the object test first), anything else is assigned. -/
def utilValue : JsVal → String → List (String × JsVal) →
    List (String × JsVal)
  | JsVal.arr items, pre, result =>
    let grouped :=
      if items.all (fun v => match v with
        | JsVal.str _ => true
        | _ => false) then
        dictSet result pre (JsVal.arr items)
      else result
    utilItems items 0 pre grouped
  | JsVal.file _, _, result => result
  | JsVal.obj entries, pre, result => utilEntries entries pre result
  | v, name, result => dictSet result name v

/-- The entry loop of the util.ts flatten. -/
def utilEntries : List (String × JsVal) → String →
    List (String × JsVal) → List (String × JsVal)
  | [], _, result => result
  | (key, value) :: rest, pre, result =>
    let name := if pre = "" then key else pre ++ "." ++ key
    utilEntries rest pre (utilValue value name result)

/-- The item loop of the util.ts flatten. -/
def utilItems : List JsVal → Nat → String →
    List (String × JsVal) → List (String × JsVal)
  | [], _, _, result => result
  | item :: rest, i, pre, result =>
    let name := pre ++ "[" ++ natToDec i ++ "]"
    utilItems rest (i + 1) pre (utilValue item name result)
end

/-- Model of flatten (util.ts): an array is processed by the array loop,
anything else by the object loop (the TS signature admits records and
arrays). -/
def flattenUtil : JsVal → List (String × JsVal)
  | JsVal.arr items => utilValue (JsVal.arr items) "" []
  | JsVal.obj entries => utilEntries entries "" []
  | _ => []

/-- A depth-one scalar value that cleanup keeps unchanged: a string or a
Date (not null, File, undefined or a container). -/
def isCleanScalar : JsVal → Bool
  | JsVal.str _ => true
  | JsVal.date _ => true
  | _ => false

/-- C7 counterexample: flattening the already-flat map with the single entry
a ↦ "x" (formdata.ts flatten) yields a record that additionally contains the
whole map under the root key, the empty string — so the result is not equal
to the input map, refuting idempotence on flat maps for this flatten. -/
theorem c7_counterexample :
    (flattenDom (JsVal.obj [("a", JsVal.str "x")])).lookup "" =
      some (JsVal.obj [("a", JsVal.str "x")]) ∧
    (([("a", JsVal.str "x")] : List (String × JsVal)).lookup "") = none :=
  ⟨rfl, rfl⟩

end Conform

namespace Conform

theorem cleanup_clean_scalar {v : JsVal} (h : isCleanScalar v = true) :
    cleanup v = v := by
  cases v <;> simp [isCleanScalar] at h <;> rfl

theorem clean_scalar_ne_undef {v : JsVal} (h : isCleanScalar v = true) :
    v ≠ JsVal.undef := by
  cases v <;> simp [isCleanScalar] at h <;> simp

theorem cleanupEntries_clean (m : List (String × JsVal))
    (h : ∀ e ∈ m, isCleanScalar e.2 = true) : cleanupEntries m = m := by
  induction m with
  | nil => rfl
  | cons e rest ih =>
    obtain ⟨k, v⟩ := e
    have hv : isCleanScalar v = true := h (k, v) (List.mem_cons_self _ _)
    have hrest : ∀ e ∈ rest, isCleanScalar e.2 = true :=
      fun e he => h e (List.mem_cons_of_mem _ he)
    cases v <;> simp [isCleanScalar] at hv <;>
      simp [cleanupEntries, cleanup, ih hrest]

theorem setResultD_scalar {v : JsVal} (h : isCleanScalar v = true)
    (name : String) (result : List (String × JsVal))
    (hfresh : result.lookup name = none) :
    setResultD v name result = result ++ [(name, v)] := by
  have hc : cleanup v = v := cleanup_clean_scalar h
  cases v <;> simp [isCleanScalar] at h <;>
    simp [setResultD, cleanup, dictSet, hfresh]

theorem processValue_scalar {v : JsVal} (h : isCleanScalar v = true)
    (name : String) (result : List (String × JsVal))
    (hfresh : result.lookup name = none) :
    processValue v name result = result ++ [(name, v)] := by
  cases v with
  | str s => exact setResultD_scalar h name result hfresh
  | date t => exact setResultD_scalar h name result hfresh
  | undef => simp [isCleanScalar] at h
  | nullV => simp [isCleanScalar] at h
  | file i => simp [isCleanScalar] at h
  | obj entries => simp [isCleanScalar] at h
  | arr items => simp [isCleanScalar] at h

theorem utilValue_scalar {v : JsVal} (h : isCleanScalar v = true)
    (name : String) (result : List (String × JsVal))
    (hfresh : result.lookup name = none) :
    utilValue v name result = result ++ [(name, v)] := by
  cases v with
  | str s =>
    show dictSet result name (JsVal.str s) = _
    simp [dictSet, hfresh]
  | date t =>
    show dictSet result name (JsVal.date t) = _
    simp [dictSet, hfresh]
  | undef => simp [isCleanScalar] at h
  | nullV => simp [isCleanScalar] at h
  | file i => simp [isCleanScalar] at h
  | obj entries => simp [isCleanScalar] at h
  | arr items => simp [isCleanScalar] at h

theorem processEntries_scalars :
    ∀ (m result : List (String × JsVal)),
      (∀ e ∈ m, isCleanScalar e.2 = true) →
      (∀ e ∈ m, result.lookup e.1 = none) →
      (m.map Prod.fst).Nodup →
      processEntries m "" result = result ++ m := by
  intro m
  induction m with
  | nil =>
    intro result _ _ _
    simp [processEntries]
  | cons e rest ih =>
    intro result h hfresh hnodup
    obtain ⟨k, v⟩ := e
    have hv : isCleanScalar v = true := h (k, v) (List.mem_cons_self _ _)
    have hk : result.lookup k = none := hfresh (k, v) (List.mem_cons_self _ _)
    show processEntries rest "" (processValue v k result) = _
    rw [processValue_scalar hv k result hk]
    have hknotin : ∀ e ∈ rest, e.1 ≠ k := by
      intro e he
      rw [List.map_cons] at hnodup
      have := (List.nodup_cons.mp hnodup).1
      intro hcon
      have hmem : e.1 ∈ rest.map Prod.fst := List.mem_map_of_mem Prod.fst he
      rw [hcon] at hmem
      exact this hmem
    rw [ih (result ++ [(k, v)])
      (fun e he => h e (List.mem_cons_of_mem _ he))
      (fun e he => by
        rw [lookup_append_right _ _ _ (hfresh e (List.mem_cons_of_mem _ he)),
          lookup_cons, if_neg (hknotin e he)]
        rfl)
      (by rw [List.map_cons] at hnodup; exact hnodup.of_cons)]
    simp

theorem utilEntries_scalars :
    ∀ (m result : List (String × JsVal)),
      (∀ e ∈ m, isCleanScalar e.2 = true) →
      (∀ e ∈ m, result.lookup e.1 = none) →
      (m.map Prod.fst).Nodup →
      utilEntries m "" result = result ++ m := by
  intro m
  induction m with
  | nil =>
    intro result _ _ _
    simp [utilEntries]
  | cons e rest ih =>
    intro result h hfresh hnodup
    obtain ⟨k, v⟩ := e
    have hv : isCleanScalar v = true := h (k, v) (List.mem_cons_self _ _)
    have hk : result.lookup k = none := hfresh (k, v) (List.mem_cons_self _ _)
    show utilEntries rest "" (utilValue v k result) = _
    rw [utilValue_scalar hv k result hk]
    have hknotin : ∀ e ∈ rest, e.1 ≠ k := by
      intro e he
      rw [List.map_cons] at hnodup
      have := (List.nodup_cons.mp hnodup).1
      intro hcon
      have hmem : e.1 ∈ rest.map Prod.fst := List.mem_map_of_mem Prod.fst he
      rw [hcon] at hmem
      exact this hmem
    rw [ih (result ++ [(k, v)])
      (fun e he => h e (List.mem_cons_of_mem _ he))
      (fun e he => by
        rw [lookup_append_right _ _ _ (hfresh e (List.mem_cons_of_mem _ he)),
          lookup_cons, if_neg (hknotin e he)]
        rfl)
      (by rw [List.map_cons] at hnodup; exact hnodup.of_cons)]
    simp

/-- C7 as amended: flattening an already-flat map (nonempty, with nonempty
distinct keys and scalar string/Date values) with the formdata.ts flatten
yields the map itself preceded by one extra root entry, the empty key mapped
to the whole map; the older util.ts flatten satisfies flatten(m) = m exactly
as the claim states. -/
theorem c7_flatten_amended (m : List (String × JsVal)) (hne : m ≠ [])
    (hkeys : ∀ e ∈ m, e.1 ≠ "") (hnodup : (m.map Prod.fst).Nodup)
    (hvals : ∀ e ∈ m, isCleanScalar e.2 = true) :
    flattenDom (JsVal.obj m) = ("", JsVal.obj m) :: m ∧
    flattenUtil (JsVal.obj m) = m := by
  constructor
  · have hc : cleanup (JsVal.obj m) = JsVal.obj m := by
      cases m with
      | nil => exact absurd rfl hne
      | cons e rest =>
        simp [cleanup, cleanupEntries_clean _ hvals]
    have hset : setResultD (JsVal.obj m) "" [] = [("", JsVal.obj m)] := by
      unfold setResultD
      rw [hc]
      cases m with
      | nil => exact absurd rfl hne
      | cons e rest => simp [dictSet, List.lookup]
    show processValue (JsVal.obj m) "" [] = _
    have hstep : processValue (JsVal.obj m) "" [] =
        processEntries m "" (setResultD (JsVal.obj m) "" []) := rfl
    rw [hstep, hset, processEntries_scalars m [("", JsVal.obj m)] hvals
      (fun e he => by
        rw [lookup_cons, if_neg (hkeys e he)]
        rfl)
      hnodup]
    rfl
  · show utilEntries m "" [] = m
    have h := utilEntries_scalars m [] hvals (fun e _ => rfl) hnodup
    simpa using h

/-- Witness for c7_flatten_amended at a concrete flat map. -/
theorem c7_flatten_amended_witness :
    flattenDom (JsVal.obj [("a", JsVal.str "x"), ("b", JsVal.str "y")]) =
      ("", JsVal.obj [("a", JsVal.str "x"), ("b", JsVal.str "y")]) ::
        [("a", JsVal.str "x"), ("b", JsVal.str "y")] ∧
    flattenUtil (JsVal.obj [("a", JsVal.str "x"), ("b", JsVal.str "y")]) =
      [("a", JsVal.str "x"), ("b", JsVal.str "y")] :=
  c7_flatten_amended [("a", JsVal.str "x"), ("b", JsVal.str "y")]
    (List.cons_ne_nil _ _) (by decide) (by decide) (by decide)

end Conform

namespace Conform

/-! ### The path codec: getPaths and formatPaths
(conform-dom formdata.ts) -/

/-- A path segment produced by getPaths: a string key or a numeric index. -/
inductive Seg where
  | str (s : String)
  | num (n : Nat)
deriving DecidableEq

/-- An identifier character of the well-formed name grammar: anything other
than the separator characters dot and brackets. -/
def isIdentChar (c : Char) : Bool :=
  !(c = '.' || c = '[' || c = ']')

/-- The decimal re-parse of the slice between brackets: JS Number of the
digit-only slice a matched index token carries (Number of the empty slice is
0).  On names outside the well-formed grammar an unmatched piece that happens
to be bracket-shaped can carry a non-digit slice, whose JS Number value (NaN
or a non-integer) this model does not distinguish. -/
def jsIndexNum (cs : List Char) : Nat :=
  cs.foldl parseStep 0

/-- Fuelled tokenizer modelling String.prototype.split on the regex
alternation of a dot and a captured bracketed digit run: the output
interleaves the unmatched pieces (some) with the separator captures — the
bracket capture as some, the dot alternative (whose group does not
participate) as none, i.e. undefined.  The fuel only keeps the recursion
structural; any fuel at least the length of the input behaves identically
(tokCore_fuel). -/
def tokCore : Nat → List Char → List Char → List (Option (List Char))
  | 0, acc, _ => [some acc.reverse]
  | _ + 1, acc, [] => [some acc.reverse]
  | fuel + 1, acc, c :: cs =>
    if c = '.' then some acc.reverse :: none :: tokCore fuel [] cs
    else if c = '[' then
      if (cs.dropWhile isDigitChar).head? = some ']' then
        some acc.reverse ::
          some ('[' :: (cs.takeWhile isDigitChar ++ [']'])) ::
            tokCore fuel [] (cs.dropWhile isDigitChar).tail
      else tokCore fuel (c :: acc) cs
    else tokCore fuel (c :: acc) cs

/-- The tokenizer run from a pending piece: fuel instantiated with the input
length. -/
def tokRun (acc cs : List Char) : List (Option (List Char)) :=
  tokCore cs.length acc cs

/-- One step of the reduce of getPaths: undefined and empty pieces are
skipped; a piece that starts with the opening and ends with the closing
bracket contributes a numeric segment parsed from its inner slice; any other
piece contributes a string segment. -/
def reduceStep : List Seg → Option (List Char) → List Seg
  | result, none => result
  | result, some cs =>
    if cs.isEmpty then result
    else if cs.head? == some '[' && cs.getLast? == some ']' then
      result ++ [Seg.num (jsIndexNum (cs.drop 1).dropLast)]
    else result ++ [Seg.str (String.mk cs)]

/-- Model of getPaths: an empty name gives the empty path list, otherwise the
name is split and reduced. -/
def getPaths (name : String) : List Seg :=
  if name = "" then []
  else (tokRun [] name.data).foldl reduceStep []

/-- One step of formatPaths: a numeric segment renders bracketed, a string
segment renders dot-separated unless the name so far or the segment is
empty. -/
def fmtStep (name : String) (path : Seg) : String :=
  match path with
  | Seg.num n => name ++ "[" ++ natToDec n ++ "]"
  | Seg.str s =>
    if name = "" || s = "" then name ++ s else name ++ "." ++ s

/-- Model of formatPaths: the left fold of fmtStep from the empty name. -/
def formatPaths (paths : List Seg) : String :=
  paths.foldl fmtStep ""

/-- A valid segment of the well-formed name grammar: any index, or a
nonempty key free of the separator characters. -/
def validSeg : Seg → Bool
  | Seg.str s => !s.data.isEmpty && s.data.all isIdentChar
  | Seg.num _ => true

/-- A valid path: every segment is valid. -/
def validPath (p : List Seg) : Bool := p.all validSeg

/-- A well-formed field name: the rendering of some valid path, i.e. a name
built only from dot-separated nonempty identifier segments and bracketed
decimal indices. -/
def WellFormedName (x : String) : Prop :=
  ∃ p, validPath p = true ∧ formatPaths p = x

theorem tokCore_succ :
    ∀ (fuel : Nat) (acc cs : List Char), cs.length ≤ fuel →
      tokCore (fuel + 1) acc cs = tokCore fuel acc cs := by
  intro fuel
  induction fuel with
  | zero =>
    intro acc cs h
    have hcs : cs = [] := List.length_eq_zero.mp (by omega)
    subst hcs
    rfl
  | succ f ih =>
    intro acc cs h
    cases cs with
    | nil => rfl
    | cons c cs' =>
      rw [List.length_cons] at h
      show tokCore (f + 1 + 1) acc (c :: cs') = tokCore (f + 1) acc (c :: cs')
      simp only [tokCore]
      by_cases hdot : c = '.'
      · simp only [if_pos hdot]
        rw [ih [] cs' (by omega)]
      · simp only [if_neg hdot]
        by_cases hbr : c = '['
        · simp only [if_pos hbr]
          by_cases hhd : (cs'.dropWhile isDigitChar).head? = some ']'
          · simp only [if_pos hhd]
            have hlen : (cs'.dropWhile isDigitChar).tail.length ≤
                cs'.length - 1 := by
              have h1 : (cs'.dropWhile isDigitChar).length ≤ cs'.length :=
                (List.dropWhile_sublist isDigitChar).length_le
              have h2 := List.length_tail (cs'.dropWhile isDigitChar)
              omega
            rw [ih [] _ (by omega)]
          · simp only [if_neg hhd]
            rw [ih (c :: acc) cs' (by omega)]
        · simp only [if_neg hbr]
          rw [ih (c :: acc) cs' (by omega)]

end Conform

namespace Conform

theorem tokCore_fuel {fuel : Nat} (acc cs : List Char) (h : cs.length ≤ fuel) :
    tokCore fuel acc cs = tokRun acc cs := by
  unfold tokRun
  induction fuel with
  | zero =>
    have hcs : cs = [] := List.length_eq_zero.mp (by omega)
    subst hcs
    rfl
  | succ f ih =>
    rcases Nat.lt_or_ge cs.length (f + 1) with h' | h'
    · rw [tokCore_succ f acc cs (by omega), ih (by omega)]
    · have hl : cs.length = f + 1 := by omega
      rw [hl]

theorem tokRun_nil (acc : List Char) : tokRun acc [] = [some acc.reverse] :=
  rfl

theorem tokRun_dot (acc cs : List Char) :
    tokRun acc ('.' :: cs) = some acc.reverse :: none :: tokRun [] cs := by
  show tokCore (cs.length + 1) acc ('.' :: cs) = _
  simp only [tokCore, if_pos rfl]
  rfl

theorem tokRun_other (acc cs : List Char) (c : Char) (hdot : ¬c = '.')
    (hbr : ¬c = '[') : tokRun acc (c :: cs) = tokRun (c :: acc) cs := by
  show tokCore (cs.length + 1) acc (c :: cs) = _
  simp only [tokCore, if_neg hdot, if_neg hbr]
  rfl

theorem dropWhile_digits_append (ds l : List Char)
    (hds : ∀ c ∈ ds, isDigitChar c = true) :
    (ds ++ ']' :: l).dropWhile isDigitChar = ']' :: l := by
  induction ds with
  | nil =>
    have hnd : isDigitChar ']' = false := by decide
    rw [List.nil_append, List.dropWhile_cons]
    simp [hnd]
  | cons d ds' ih =>
    have hd : isDigitChar d = true := hds d (List.mem_cons_self _ _)
    simp only [List.cons_append, List.dropWhile_cons, hd, if_true]
    exact ih (fun c hc => hds c (List.mem_cons_of_mem _ hc))

theorem takeWhile_digits_append (ds l : List Char)
    (hds : ∀ c ∈ ds, isDigitChar c = true) :
    (ds ++ ']' :: l).takeWhile isDigitChar = ds := by
  induction ds with
  | nil =>
    have hnd : isDigitChar ']' = false := by decide
    rw [List.nil_append, List.takeWhile_cons]
    simp [hnd]
  | cons d ds' ih =>
    have hd : isDigitChar d = true := hds d (List.mem_cons_self _ _)
    simp only [List.cons_append, List.takeWhile_cons, hd, if_true]
    rw [ih (fun c hc => hds c (List.mem_cons_of_mem _ hc))]

theorem tokRun_bracket (acc ds l : List Char)
    (hds : ∀ c ∈ ds, isDigitChar c = true) :
    tokRun acc ('[' :: (ds ++ ']' :: l)) =
      some acc.reverse :: some ('[' :: (ds ++ [']'])) :: tokRun [] l := by
  have hlen : l.length ≤ (ds ++ ']' :: l).length := by
    rw [List.length_append, List.length_cons]
    omega
  show tokCore ((ds ++ ']' :: l).length + 1) acc ('[' :: (ds ++ ']' :: l)) = _
  unfold tokCore
  rw [if_neg (by decide : ¬('[' = '.')), if_pos rfl,
    dropWhile_digits_append ds l hds, takeWhile_digits_append ds l hds,
    List.head?_cons, if_pos rfl, List.tail_cons, tokCore_fuel [] l hlen]

theorem identChar_ne {c : Char} (h : isIdentChar c = true) :
    ¬c = '.' ∧ ¬c = '[' ∧ ¬c = ']' := by
  refine ⟨?_, ?_, ?_⟩ <;> intro hcon <;> subst hcon <;>
    exact absurd h (by decide)

theorem tokRun_identRun (s : List Char)
    (hs : ∀ c ∈ s, isIdentChar c = true) :
    ∀ acc cs, tokRun acc (s ++ cs) = tokRun (s.reverse ++ acc) cs := by
  induction s with
  | nil =>
    intro acc cs
    simp
  | cons c s' ih =>
    intro acc cs
    have hc := identChar_ne (hs c (List.mem_cons_self _ _))
    rw [List.cons_append, tokRun_other acc (s' ++ cs) c hc.1 hc.2.1]
    rw [ih (fun x hx => hs x (List.mem_cons_of_mem _ hx)) (c :: acc) cs]
    rw [List.reverse_cons, List.append_assoc]
    rfl

end Conform

namespace Conform

/-- The string segments contributed by a pending piece of identifier
characters: none if the piece is empty, the reversed piece otherwise. -/
def segOfAcc (acc : List Char) : List Seg :=
  if acc.isEmpty then [] else [Seg.str (String.mk acc.reverse)]

theorem reduceStep_ident (R : List Seg) (cs : List Char) (hne : cs ≠ [])
    (hid : ∀ c ∈ cs, isIdentChar c = true) :
    reduceStep R (some cs) = R ++ [Seg.str (String.mk cs)] := by
  cases cs with
  | nil => exact absurd rfl hne
  | cons c0 cs' =>
    have hc0 := identChar_ne (hid c0 (List.mem_cons_self _ _))
    show (if (c0 :: cs').isEmpty = true then R
      else if ((c0 :: cs').head? == some '[' &&
          (c0 :: cs').getLast? == some ']') = true then
        R ++ [Seg.num (jsIndexNum ((c0 :: cs').drop 1).dropLast)]
      else R ++ [Seg.str (String.mk (c0 :: cs'))]) = _
    rw [if_neg (by simp)]
    rw [if_neg ?hcond]
    case hcond =>
      rw [List.head?_cons]
      simp only [Bool.and_eq_true, beq_iff_eq, Option.some.injEq]
      intro hcon
      exact hc0.2.1 hcon.1

theorem reduceStep_bracket (R : List Seg) (ds : List Char) :
    reduceStep R (some ('[' :: (ds ++ [']']))) =
      R ++ [Seg.num (jsIndexNum ds)] := by
  show (if ('[' :: (ds ++ [']'])).isEmpty = true then R
    else if (('[' :: (ds ++ [']'])).head? == some '[' &&
        ('[' :: (ds ++ [']'])).getLast? == some ']') = true then
      R ++ [Seg.num (jsIndexNum (('[' :: (ds ++ [']'])).drop 1).dropLast)]
    else R ++ [Seg.str (String.mk ('[' :: (ds ++ [']'])))]) = _
  rw [if_neg (by simp)]
  rw [if_pos ?hcond]
  case hcond =>
    rw [List.head?_cons]
    have hlast : ('[' :: (ds ++ [']'])).getLast? = some ']' := by
      rw [show ('[' :: (ds ++ [']'])) = ('[' :: ds) ++ [']'] from by
        rw [List.cons_append]]
      exact List.getLast?_concat _
    rw [hlast]
    simp
  rw [List.drop_one, List.tail_cons, List.dropLast_concat]

theorem reduceStep_accPiece (R : List Seg) (acc : List Char)
    (hacc : ∀ c ∈ acc, isIdentChar c = true) :
    reduceStep R (some acc.reverse) = R ++ segOfAcc acc := by
  cases hacc2 : acc with
  | nil => simp [reduceStep, segOfAcc]
  | cons a acc' =>
    subst hacc2
    have hne : (a :: acc').reverse ≠ [] := by
      simp
    have hid : ∀ c ∈ (a :: acc').reverse, isIdentChar c = true := by
      intro c hc
      rw [List.mem_reverse] at hc
      exact hacc c hc
    rw [reduceStep_ident R _ hne hid]
    unfold segOfAcc
    rw [if_neg (by simp)]

/-- The rendering of a non-initial segment: a dot before a key, brackets
around an index. -/
def renderRest : Seg → List Char
  | Seg.num n => '[' :: ((natToDec n).data ++ [']'])
  | Seg.str s => '.' :: s.data

/-- The rendering of the segments after the first. -/
def renderTail (p : List Seg) : List Char :=
  (p.map renderRest).flatten

theorem validSeg_str {s : String} (h : validSeg (Seg.str s) = true) :
    s.data ≠ [] ∧ ∀ c ∈ s.data, isIdentChar c = true := by
  unfold validSeg at h
  rw [Bool.and_eq_true] at h
  constructor
  · intro hcon
    rw [hcon] at h
    simp at h
  · intro c hc
    have := h.2
    rw [List.all_eq_true] at this
    exact this c hc

theorem segOfAcc_reverse (s : String) (h : validSeg (Seg.str s) = true) :
    segOfAcc s.data.reverse = [Seg.str s] := by
  obtain ⟨hne, _⟩ := validSeg_str h
  unfold segOfAcc
  rw [if_neg (by simp [hne])]
  rw [List.reverse_reverse]

theorem reduce_tokRun_renderTail :
    ∀ (p : List Seg), validPath p = true →
      ∀ (acc : List Char), (∀ c ∈ acc, isIdentChar c = true) →
      ∀ (R : List Seg),
        (tokRun acc (renderTail p)).foldl reduceStep R =
          R ++ segOfAcc acc ++ p := by
  intro p
  induction p with
  | nil =>
    intro _ acc hacc R
    show (tokRun acc []).foldl reduceStep R = _
    rw [tokRun_nil]
    show reduceStep R (some acc.reverse) = _
    rw [reduceStep_accPiece R acc hacc]
    simp
  | cons e rest ih =>
    intro hp acc hacc R
    have hsplit : validSeg e = true ∧ validPath rest = true := by
      unfold validPath at hp
      rw [List.all_cons, Bool.and_eq_true] at hp
      exact hp
    cases e with
    | num n =>
      have hshape : renderTail (Seg.num n :: rest) =
          '[' :: ((natToDec n).data ++ ']' :: renderTail rest) := by
        show (List.map renderRest (Seg.num n :: rest)).flatten = _
        rw [List.map_cons, List.flatten_cons]
        show ('[' :: ((natToDec n).data ++ [']'])) ++
          (List.map renderRest rest).flatten = _
        rw [List.cons_append, List.append_assoc]
        rfl
      rw [hshape, tokRun_bracket acc _ _ (natToDec_digits n)]
      rw [List.foldl_cons, List.foldl_cons]
      rw [reduceStep_accPiece R acc hacc, reduceStep_bracket _ _]
      rw [show jsIndexNum (natToDec n).data = n from
        foldl_parseStep_natToDec n]
      rw [ih hsplit.2 [] (by intro c hc; cases hc) _]
      simp [segOfAcc]
    | str s =>
      obtain ⟨hne, hid⟩ := validSeg_str hsplit.1
      have hshape : renderTail (Seg.str s :: rest) =
          '.' :: (s.data ++ renderTail rest) := by
        show (List.map renderRest (Seg.str s :: rest)).flatten = _
        rw [List.map_cons, List.flatten_cons]
        rfl
      rw [hshape, tokRun_dot]
      rw [List.foldl_cons, List.foldl_cons]
      rw [reduceStep_accPiece R acc hacc]
      show ((tokRun [] (s.data ++ renderTail rest)).foldl reduceStep
        (R ++ segOfAcc acc)) = _
      rw [tokRun_identRun s.data hid [] (renderTail rest)]
      rw [List.append_nil]
      rw [ih hsplit.2 s.data.reverse
        (by intro c hc; rw [List.mem_reverse] at hc; exact hid c hc) _]
      rw [segOfAcc_reverse s hsplit.1]
      simp

end Conform

namespace Conform

theorem str_append_data (a b : String) : (a ++ b).data = a.data ++ b.data :=
  rfl

theorem fmtStep_num_data (name : String) (n : Nat) :
    (fmtStep name (Seg.num n)).data = name.data ++ renderRest (Seg.num n) := by
  show (name ++ "[" ++ natToDec n ++ "]").data = _
  simp only [str_append_data, List.append_assoc]
  rfl

theorem fmtStep_str_data (name : String) (s : String)
    (hname : name.data ≠ []) (hs : s.data ≠ []) :
    (fmtStep name (Seg.str s)).data = name.data ++ renderRest (Seg.str s) := by
  have hname' : ¬name = "" := by
    intro hcon
    rw [hcon] at hname
    exact hname rfl
  have hs' : ¬s = "" := by
    intro hcon
    rw [hcon] at hs
    exact hs rfl
  show (if name = "" || s = "" then name ++ s else name ++ "." ++ s).data = _
  rw [if_neg (by simp [hname', hs'])]
  simp only [str_append_data, List.append_assoc]
  rfl

theorem formatPaths_tail_data :
    ∀ (rest : List Seg), validPath rest = true →
      ∀ name : String, name.data ≠ [] →
        (rest.foldl fmtStep name).data = name.data ++ renderTail rest := by
  intro rest
  induction rest with
  | nil =>
    intro _ name _
    show name.data = name.data ++ renderTail []
    simp [renderTail]
  | cons e r ih =>
    intro hp name hname
    have hsplit : validSeg e = true ∧ validPath r = true := by
      unfold validPath at hp
      rw [List.all_cons, Bool.and_eq_true] at hp
      exact hp
    rw [List.foldl_cons]
    have htail : renderTail (e :: r) = renderRest e ++ renderTail r := by
      show (List.map renderRest (e :: r)).flatten = _
      rw [List.map_cons, List.flatten_cons]
      rfl
    cases e with
    | num n =>
      have hd := fmtStep_num_data name n
      have hne2 : (fmtStep name (Seg.num n)).data ≠ [] := by
        rw [hd]
        simp [renderRest]
      rw [ih hsplit.2 _ hne2, hd, htail, List.append_assoc]
    | str s =>
      obtain ⟨hsne, _⟩ := validSeg_str hsplit.1
      have hd := fmtStep_str_data name s hname hsne
      have hne2 : (fmtStep name (Seg.str s)).data ≠ [] := by
        rw [hd]
        simp [renderRest]
      rw [ih hsplit.2 _ hne2, hd, htail, List.append_assoc]

theorem getPaths_formatPaths (p : List Seg) (hp : validPath p = true) :
    getPaths (formatPaths p) = p := by
  cases p with
  | nil => rfl
  | cons e rest =>
    have hsplit : validSeg e = true ∧ validPath rest = true := by
      unfold validPath at hp
      rw [List.all_cons, Bool.and_eq_true] at hp
      exact hp
    cases e with
    | num n =>
      have h0 : (fmtStep "" (Seg.num n)).data =
          '[' :: ((natToDec n).data ++ [']']) := rfl
      have hdata : (formatPaths (Seg.num n :: rest)).data =
          '[' :: ((natToDec n).data ++ ']' :: renderTail rest) := by
        show ((Seg.num n :: rest).foldl fmtStep "").data = _
        rw [List.foldl_cons,
          formatPaths_tail_data rest hsplit.2 _ (by rw [h0]; simp), h0,
          List.cons_append, List.append_assoc]
        rfl
      have hne : formatPaths (Seg.num n :: rest) ≠ "" := by
        intro hcon
        rw [hcon] at hdata
        exact absurd hdata (by simp)
      unfold getPaths
      rw [if_neg hne, hdata]
      rw [tokRun_bracket [] _ _ (natToDec_digits n)]
      rw [List.foldl_cons, List.foldl_cons]
      rw [show reduceStep [] (some ([] : List Char).reverse) = [] from rfl]
      rw [reduceStep_bracket [] ((natToDec n).data),
        show jsIndexNum (natToDec n).data = n from foldl_parseStep_natToDec n]
      rw [reduce_tokRun_renderTail rest hsplit.2 []
        (by intro c hc; cases hc) _]
      simp [segOfAcc]
    | str s =>
      obtain ⟨hsne, hid⟩ := validSeg_str hsplit.1
      have h0 : (fmtStep "" (Seg.str s)).data = s.data := by
        show (if ("" : String) = "" || s = "" then "" ++ s
          else "" ++ "." ++ s).data = _
        rw [if_pos (by simp)]
        rfl
      have hdata : (formatPaths (Seg.str s :: rest)).data =
          s.data ++ renderTail rest := by
        show ((Seg.str s :: rest).foldl fmtStep "").data = _
        rw [List.foldl_cons,
          formatPaths_tail_data rest hsplit.2 _ (by rw [h0]; exact hsne), h0]
      have hnem : formatPaths (Seg.str s :: rest) ≠ "" := by
        intro hcon
        rw [hcon] at hdata
        exact hsne (List.append_eq_nil.mp hdata.symm).1
      unfold getPaths
      rw [if_neg hnem, hdata]
      rw [tokRun_identRun s.data hid [] (renderTail rest), List.append_nil]
      rw [reduce_tokRun_renderTail rest hsplit.2 s.data.reverse
        (by intro c hc; rw [List.mem_reverse] at hc; exact hid c hc) []]
      rw [segOfAcc_reverse s hsplit.1]
      simp

/-- C1: for every well-formed field name built only from dot-separated
nonempty identifier segments and bracketed decimal indices,
formatPaths (getPaths x) = x. -/
theorem c1_path_roundtrip (x : String) (h : WellFormedName x) :
    formatPaths (getPaths x) = x := by
  obtain ⟨p, hp, hx⟩ := h
  rw [← hx, getPaths_formatPaths p hp]

/-- Witness for c1_path_roundtrip at the concrete name of the claim. -/
theorem c1_path_roundtrip_witness :
    WellFormedName "todos[0].content" ∧
    formatPaths (getPaths "todos[0].content") = "todos[0].content" := by
  have hw : WellFormedName "todos[0].content" :=
    ⟨[Seg.str "todos", Seg.num 0, Seg.str "content"], by decide, by decide⟩
  exact ⟨hw, c1_path_roundtrip "todos[0].content" hw⟩

end Conform
